import Mathlib

/-!
Verification development for the sweep-path planner in `path_planning.py`.

The planner `generate_sweep_waypoints` validates a geographic polygon,
projects it to a planar (UTM) frame, generates horizontal scan lines across
the polygon's bounding box, clips each line against the polygon, sorts the
clipped segments by centroid y, interpolates waypoints along each segment,
reverses every other segment and concatenates the result.

This file embeds that algorithm shallowly over ℚ.  The two pyproj
transformers (resolved from the polygon centroid's UTM zone) are modelled as
an abstract `Projection` record of total functions, since their numerics live
in an external library; everything else is translated from the source.
-/

deriving instance DecidableEq for Except

namespace PathPlanning

/-- Planar or geographic point: a pair of rationals.  In geographic use the
components are (longitude, latitude) in degrees; in planar use (x, y) in
meters, matching the `always_xy=True` axis order of the source. -/
abbrev Pt : Type := ℚ × ℚ

/-- Waypoint as returned by `generate_sweep_waypoints`: (lon, lat, altitude). -/
abbrev Wp : Type := ℚ × ℚ × ℚ

/-- Horizontal planar segment from (x1, y) to (x2, y).  Scan lines
(`LineString([(minx, y), (maxx, y)])` in the source) and clipped segments are
both of this shape, since the intersection of a horizontal line with a
polygon is a union of horizontal segments. -/
structure Seg where
  x1 : ℚ
  x2 : ℚ
  y : ℚ
deriving DecidableEq

/-- Errors the planning call can surface.  `geometryError` models the
`ValueError("Invalid polygon geometry.")` raise (and shapely's constructor
error for rings of fewer than 3 coordinates); `zeroDivisionError` models the
Python `ZeroDivisionError` from `length // waypoint_interval` when
`waypoint_interval = 0`; `configurationError` is the error class named by the
specification's taxonomy — the source contains no corresponding raise site,
and the development shows it is never produced. -/
inductive PlanError where
  | geometryError
  | zeroDivisionError
  | configurationError
deriving DecidableEq

/-- The pair of pyproj transformers built at lines 57-58 of the source,
abstracted as total functions: `toPlane` is `project_to_utm`, `toGeo` is
`project_to_latlon`. -/
structure Projection where
  toPlane : Pt → Pt
  toGeo : Pt → Pt

/-- Identity projection, used to exercise the planar core on inputs already
given in meters. -/
def idProj : Projection := ⟨id, id⟩

/-- Rotation of a ring by one position: `[a, b, c] ↦ [b, c, a]`, so that
zipping a vertex list with its rotation yields the closed ring's edges. -/
def ringShifts (l : List Pt) : List Pt :=
  match l with
  | [] => []
  | a :: t => t ++ [a]

/-- Edge list of the implicitly closed polygon ring. -/
def edges (vs : List Pt) : List (Pt × Pt) := vs.zip (ringShifts vs)

/-- Twice the signed area of the closed ring (shoelace sum).  A ring is
degenerate (zero enclosed area) exactly when this vanishes. -/
def shoelace (l : List Pt) : ℚ :=
  ((l.zip (ringShifts l)).map fun pq => pq.1.1 * pq.2.2 - pq.2.1 * pq.1.2).sum

/-- Polygon validation, modelling lines 52-54 of the source: the shapely
constructor rejects rings of fewer than 3 coordinates, and the explicit
`is_valid`/`is_empty` check rejects degenerate geometry.  GEOS validity is
modelled here as a nonzero shoelace sum (GEOS additionally rejects
self-intersecting rings, which no claim in this development exercises). -/
def validatePolygon (coords : List Pt) : Except PlanError (List Pt) :=
  if coords.length < 3 then Except.error PlanError.geometryError
  else if shoelace coords = 0 then Except.error PlanError.geometryError
  else Except.ok coords

/-- Python `int()` on a rational value: truncation toward zero. -/
def pyInt (x : ℚ) : ℤ := if 0 ≤ x then ⌊x⌋ else ⌈x⌉

/-- UTM EPSG code selection from the source's `get_utm_crs`:
`zone = int((lon + 180) / 6) + 1`, then `32600 + zone` for the northern
hemisphere and `32700 + zone` for the southern. -/
def get_utm_crs (lat lon : ℚ) : ℤ :=
  if 0 ≤ lat then 32600 + (pyInt ((lon + 180) / 6) + 1)
  else 32700 + (pyInt ((lon + 180) / 6) + 1)

/-- Minimum x over a vertex list (`bounds` component); 0 on the empty list,
which validation rules out. -/
def minX (l : List Pt) : ℚ :=
  match l with
  | [] => 0
  | p :: t => t.foldl (fun m q => min m q.1) p.1

/-- Maximum x over a vertex list (`bounds` component). -/
def maxX (l : List Pt) : ℚ :=
  match l with
  | [] => 0
  | p :: t => t.foldl (fun m q => max m q.1) p.1

/-- Minimum y over a vertex list (`bounds` component). -/
def minY (l : List Pt) : ℚ :=
  match l with
  | [] => 0
  | p :: t => t.foldl (fun m q => min m q.2) p.2

/-- Maximum y over a vertex list (`bounds` component). -/
def maxY (l : List Pt) : ℚ :=
  match l with
  | [] => 0
  | p :: t => t.foldl (fun m q => max m q.2) p.2

/-- The scan-line while loop of lines 61-72 in fuelled form, recording the y
value of each iteration: `while y <= maxy: ... ; y += spacing`.  Returns
`none` when the fuel is exhausted before the loop exits, so divergence of the
source loop is `none` for every fuel. -/
def scanLoop (fuel : ℕ) (s maxy y : ℚ) (acc : List ℚ) : Option (List ℚ) :=
  match fuel with
  | 0 => none
  | f + 1 =>
    if y ≤ maxy then scanLoop f s maxy (y + s) (acc ++ [y]) else some acc

/-- Closed form of the y values visited by the scan loop started at `y`, for
positive spacing: `y + k * s` for `k = 0 .. ⌊(maxy - y) / s⌋`. -/
def scanYsAux (s maxy y : ℚ) : List ℚ :=
  if y ≤ maxy then
    (List.range ((⌊(maxy - y) / s⌋).toNat + 1)).map fun (k : ℕ) => y + (k : ℚ) * s
  else []

/-- Scan-line y values of the planner for the bounding box `[miny, maxy]`.
For `0 < s` this is the exact value computed by the source loop (theorems tie
it to `scanLoop`); for `s ≤ 0` the source loop diverges whenever
`miny ≤ maxy`, and this total model returns `[]` there — planner-level
theorems therefore carry a `0 < s` hypothesis. -/
def scanYs (miny maxy s : ℚ) : List ℚ :=
  if 0 < s then scanYsAux s maxy miny else []

/-- Candidate scan lines: `LineString([(minx, y), (maxx, y)])` for each
visited y (line 64 of the source). -/
def scanLines (minx maxx miny maxy s : ℚ) : List Seg :=
  (scanYs miny maxy s).map fun y => ⟨minx, maxx, y⟩

/-- Does point `p` lie on the closed edge from `a` to `b`?  (Collinear and
within the edge's bounding box.) -/
def pointOnEdge (p a b : Pt) : Bool :=
  decide ((b.1 - a.1) * (p.2 - a.2) - (b.2 - a.2) * (p.1 - a.1) = 0 ∧
    min a.1 b.1 ≤ p.1 ∧ p.1 ≤ max a.1 b.1 ∧
    min a.2 b.2 ≤ p.2 ∧ p.2 ≤ max a.2 b.2)

/-- Is `p` on the boundary of the polygon with vertex ring `vs`? -/
def onBoundary (vs : List Pt) (p : Pt) : Bool :=
  (edges vs).any fun ab => pointOnEdge p ab.1 ab.2

/-- Does the horizontal ray from `p` toward +x cross the edge `ab`?  The
half-open vertical rule makes each vertex count for exactly one of its two
incident non-horizontal edges. -/
def rayCrosses (p : Pt) (ab : Pt × Pt) : Bool :=
  decide ((((ab.1).2 ≤ p.2 ∧ p.2 < (ab.2).2) ∨ ((ab.2).2 ≤ p.2 ∧ p.2 < (ab.1).2)) ∧
    p.1 < (ab.1).1 + (p.2 - (ab.1).2) * ((ab.2).1 - (ab.1).1) / ((ab.2).2 - (ab.1).2))

/-- Membership of `p` in the closed polygon region (boundary included):
on the boundary, or an odd number of ray crossings (even-odd interior). -/
def insideClosed (vs : List Pt) (p : Pt) : Bool :=
  onBoundary vs p || ((edges vs).countP (rayCrosses p)) % 2 == 1

/-- The x values at which the horizontal line at height `y` meets the edge
`ab`: both endpoints for a horizontal edge lying on the line, the single
crossing x for a non-horizontal edge spanning `y`, nothing otherwise. -/
def edgeCritX (y : ℚ) (ab : Pt × Pt) : List ℚ :=
  if (ab.1).2 = (ab.2).2 then
    (if (ab.1).2 = y then [(ab.1).1, (ab.2).1] else [])
  else if min (ab.1).2 (ab.2).2 ≤ y ∧ y ≤ max (ab.1).2 (ab.2).2 then
    [(ab.1).1 + (y - (ab.1).2) * ((ab.2).1 - (ab.1).1) / ((ab.2).2 - (ab.1).2)]
  else []

/-- Insert `x` into a strictly increasing list, keeping it strictly
increasing (duplicates are dropped). -/
def insertX (x : ℚ) : List ℚ → List ℚ
  | [] => [x]
  | a :: t => if x < a then x :: a :: t else if x = a then a :: t else a :: insertX x t

/-- Sort a list of rationals into strictly increasing order, removing
duplicates. -/
def sortedDedup (l : List ℚ) : List ℚ := l.foldr insertX []

/-- Consecutive pairs of a list: the cells cut out of the scan line by its
critical x values. -/
def cellsOf (xs : List ℚ) : List (ℚ × ℚ) := xs.zip xs.tail

/-- Merge runs of adjacent cells (`(a,b)` followed by `(b,d)`) into maximal
intervals, as shapely reports maximal LineString components. -/
def mergeCells : List (ℚ × ℚ) → List (ℚ × ℚ)
  | [] => []
  | c :: rest =>
    match mergeCells rest with
    | [] => [c]
    | d :: tail => if c.2 = d.1 then (c.1, d.2) :: tail else c :: d :: tail

/-- Critical x values of the scan line at height `y` restricted to
`[minx, maxx]`: edge meeting points together with the line's own endpoints,
sorted strictly increasing. -/
def criticalXs (vs : List Pt) (minx maxx y : ℚ) : List ℚ :=
  sortedDedup ((minx :: maxx :: (edges vs).flatMap (edgeCritX y)).filter
    fun x => decide (minx ≤ x ∧ x ≤ maxx))

/-- Model of `line.intersection(poly_utm)` followed by the geometry-type
dispatch of lines 65-71: the maximal positive-length sub-segments of the scan
line inside the closed polygon, left to right.  A cell between consecutive
critical x values lies entirely inside or entirely outside, so its midpoint
decides it.  Zero-length intersection components (isolated touch points) are
`Point` geometries in shapely and are dropped by the source's type dispatch;
here they never form a cell, since consecutive critical x values are
distinct.  (A `GeometryCollection` result — a scan line producing both a
segment and an isolated point — is dropped whole by the source and is not
modelled; no claim exercises it.) -/
def clipLine (vs : List Pt) (line : Seg) : List Seg :=
  let xs := criticalXs vs line.x1 line.x2 line.y
  let kept := (cellsOf xs).filter fun c => insideClosed vs ((c.1 + c.2) / 2, line.y)
  (mergeCells kept).map fun c => ⟨c.1, c.2, line.y⟩

/-- All clipped segments collected by the scan loop, in generation order
(lines 60-72 of the source). -/
def planarSegments (pvs : List Pt) (spacing : ℚ) : List Seg :=
  (scanLines (minX pvs) (maxX pvs) (minY pvs) (maxY pvs) spacing).flatMap
    fun line => clipLine pvs line

/-- Number of interpolation points on a segment of length `L`:
`max(int(length // waypoint_interval) + 1, 2)` (line 78 of the source). -/
def numPoints (L wi : ℚ) : ℕ := (max (⌊L / wi⌋ + 1) 2).toNat

/-- Planar interpolation points along a segment (lines 80-82): `num_points`
points at parameters `t = i / (num_points - 1)`, at distance `t * length`
along the segment from its first endpoint. -/
def segPlanarPoints (wi : ℚ) (s : Seg) : List Pt :=
  (List.range (numPoints (s.x2 - s.x1) wi)).map fun (i : ℕ) =>
    (s.x1 + ((i : ℚ) / ((numPoints (s.x2 - s.x1) wi : ℚ) - 1)) * (s.x2 - s.x1), s.y)

/-- Waypoints of one segment (lines 79-84): each planar point
inverse-projected and paired with the constant altitude. -/
def segmentPoints (inv : Pt → Pt) (alt wi : ℚ) (s : Seg) : List Wp :=
  (segPlanarPoints wi s).map fun p => ((inv p).1, (inv p).2, alt)

/-- The direction-alternating accumulation loop of lines 75-88: each
segment's waypoints, reversed when the `reverse` flag is set, the flag
negated after every segment. -/
def sweepFold (f : Seg → List Wp) : List Seg → Bool → List Wp
  | [], _ => []
  | s :: rest, rev => (if rev then (f s).reverse else f s) ++ sweepFold f rest (!rev)

/-- Stable insertion into a list sorted by centroid y: a segment is placed
before the first element of greater-or-equal key, so existing elements of
equal key keep their relative order and the inserted element (which preceded
them in the original list, being folded from the right) comes first. -/
def insertSeg (s : Seg) : List Seg → List Seg
  | [] => [s]
  | a :: t => if s.y ≤ a.y then s :: a :: t else a :: insertSeg s t

/-- Model of `sorted(lines, key=lambda l: l.centroid.y)` (line 73): a stable
sort by centroid y.  The centroid y of a horizontal segment is its y. -/
def sortLines (l : List Seg) : List Seg := l.foldr insertSeg []

/-- The interpolation-and-concatenation phase (lines 74-89).  When at least
one segment was retained, the first loop iteration evaluates
`length // waypoint_interval`, so `waypoint_interval = 0` raises
`ZeroDivisionError` there; with no segments the loop body never runs and the
empty list is returned. -/
def buildWaypoints (inv : Pt → Pt) (alt wi : ℚ) (lines : List Seg) :
    Except PlanError (List Wp) :=
  match lines with
  | [] => Except.ok []
  | _ :: _ =>
    if wi = 0 then Except.error PlanError.zeroDivisionError
    else Except.ok (sweepFold (segmentPoints inv alt wi) lines false)

/-- The planner `generate_sweep_waypoints` (lines 44-89): validate, project
the vertices, collect the clipped segments of all scan lines over the
bounding box, sort by centroid y, then interpolate with alternating
direction.  `proj` stands for the pyproj transformer pair of lines 56-58. -/
def generate_sweep_waypoints (proj : Projection) (coords : List Pt)
    (spacing waypoint_interval altitude : ℚ) : Except PlanError (List Wp) :=
  match validatePolygon coords with
  | Except.error e => Except.error e
  | Except.ok vs =>
    let pvs := vs.map proj.toPlane
    buildWaypoints proj.toGeo altitude waypoint_interval
      (sortLines (planarSegments pvs spacing))

/-- The square polygon of the concrete scenario, in planar meters. -/
def squarePoly : List Pt := [(0, 0), (0, 100), (100, 100), (100, 0)]

lemma ringShifts_length (l : List Pt) : (ringShifts l).length = l.length := by
  cases l with
  | nil => rfl
  | cons a t => simp [ringShifts]

lemma mem_ringShifts {p : Pt} {l : List Pt} (h : p ∈ ringShifts l) : p ∈ l := by
  cases l with
  | nil => simp [ringShifts] at h
  | cons a t =>
    simp only [ringShifts, List.mem_append, List.mem_singleton] at h
    rcases h with h | h
    · exact List.mem_cons_of_mem _ h
    · simp [h]

lemma sum_map_sub_eq (g : Pt → ℚ) (pairs : List (Pt × Pt)) :
    (pairs.map fun pq => g pq.2 - g pq.1).sum =
      (pairs.map fun pq => g pq.2).sum - (pairs.map fun pq => g pq.1).sum := by
  induction pairs with
  | nil => simp
  | cons p t ih => simp only [List.map_cons, List.sum_cons, ih]; ring

lemma sum_map_ringShifts (g : Pt → ℚ) (l : List Pt) :
    ((ringShifts l).map g).sum = (l.map g).sum := by
  cases l with
  | nil => rfl
  | cons a t => simp [ringShifts, List.sum_append, add_comm]

/-- Cross term of two points that each coincide with one of two fixed
points, written as a difference of a potential, so that the shoelace sum
telescopes. -/
lemma crossTwo (A B p q : Pt) (hp : p = A ∨ p = B) (hq : q = A ∨ q = B) :
    p.1 * q.2 - q.1 * p.2 =
      (if q = A then 0 else A.1 * B.2 - B.1 * A.2) -
      (if p = A then 0 else A.1 * B.2 - B.1 * A.2) := by
  classical
  rcases hp with h1 | h1 <;> rcases h1 <;> rcases hq with h2 | h2 <;> rcases h2 <;>
    by_cases hBA : B = A <;> simp [hBA]

/-- A ring whose vertices take at most two distinct values has zero shoelace
sum. -/
lemma shoelace_eq_zero_of_two (A B : Pt) (l : List Pt)
    (h : ∀ p ∈ l, p = A ∨ p = B) : shoelace l = 0 := by
  classical
  set g : Pt → ℚ := fun p => if p = A then 0 else A.1 * B.2 - B.1 * A.2 with hg
  have hpt : ∀ pq ∈ l.zip (ringShifts l),
      pq.1.1 * pq.2.2 - pq.2.1 * pq.1.2 = g pq.2 - g pq.1 := by
    rintro ⟨p, q⟩ hpq
    have hp : p ∈ l := (List.of_mem_zip hpq).1
    have hq : q ∈ l := mem_ringShifts (List.of_mem_zip hpq).2
    exact crossTwo A B p q (h p hp) (h q hq)
  calc shoelace l = ((l.zip (ringShifts l)).map fun pq => g pq.2 - g pq.1).sum := by
        unfold shoelace; exact congrArg List.sum (List.map_congr_left hpt)
    _ = 0 := by
        rw [sum_map_sub_eq]
        have hlen : l.length ≤ (ringShifts l).length := by rw [ringShifts_length]
        have hfst : (l.zip (ringShifts l)).map Prod.fst = l :=
          List.map_fst_zip _ _ hlen
        have hsnd : (l.zip (ringShifts l)).map Prod.snd = ringShifts l :=
          List.map_snd_zip _ _ (by rw [ringShifts_length])
        have h1 : ((l.zip (ringShifts l)).map fun pq => g pq.1) = l.map g := by
          rw [show (fun pq : Pt × Pt => g pq.1) = g ∘ Prod.fst from rfl,
            ← List.map_map, hfst]
        have h2 : ((l.zip (ringShifts l)).map fun pq => g pq.2)
            = (ringShifts l).map g := by
          rw [show (fun pq : Pt × Pt => g pq.2) = g ∘ Prod.snd from rfl,
            ← List.map_map, hsnd]
        rw [h1, h2, sum_map_ringShifts, sub_self]

/-- A ring with fewer than three distinct vertices has zero shoelace sum. -/
lemma shoelace_eq_zero_of_dedup (l : List Pt) (h : l.dedup.length < 3) :
    shoelace l = 0 := by
  classical
  have hmem : ∀ p ∈ l, p ∈ l.dedup := fun p hp => List.mem_dedup.mpr hp
  generalize hd : l.dedup = d at h
  cases d with
  | nil =>
    have hl : l = [] := by
      rcases l with _ | ⟨a, t⟩
      · rfl
      · have := hmem a (by simp)
        rw [hd] at this
        simp at this
    simp [hl, shoelace, ringShifts]
  | cons A t1 =>
    cases t1 with
    | nil =>
      refine shoelace_eq_zero_of_two A A l fun p hp => ?_
      have hm := hmem p hp
      rw [hd] at hm
      exact Or.inl (by simpa using hm)
    | cons B t2 =>
      cases t2 with
      | nil =>
        refine shoelace_eq_zero_of_two A B l fun p hp => ?_
        have hm := hmem p hp
        rw [hd] at hm
        simpa using hm
      | cons C t3 =>
        simp at h
        omega

lemma insertX_cons (x a : ℚ) (t : List ℚ) :
    insertX x (a :: t) =
      if x < a then x :: a :: t else if x = a then a :: t else a :: insertX x t := rfl

lemma mem_insertX {y x : ℚ} : ∀ {l : List ℚ}, y ∈ insertX x l → y = x ∨ y ∈ l := by
  intro l
  induction l with
  | nil =>
    intro h
    simp [insertX] at h
    exact Or.inl h
  | cons a t ih =>
    intro h
    rw [insertX_cons] at h
    by_cases h1 : x < a
    · rw [if_pos h1] at h
      rcases List.mem_cons.mp h with h | h
      · exact Or.inl h
      · exact Or.inr h
    · rw [if_neg h1] at h
      by_cases h2 : x = a
      · rw [if_pos h2] at h
        exact Or.inr h
      · rw [if_neg h2] at h
        rcases List.mem_cons.mp h with h | h
        · exact Or.inr (by simp [h])
        · rcases ih h with h3 | h3
          · exact Or.inl h3
          · exact Or.inr (List.mem_cons_of_mem _ h3)

lemma pairwise_insertX (x : ℚ) :
    ∀ (l : List ℚ), l.Pairwise (· < ·) → (insertX x l).Pairwise (· < ·) := by
  intro l
  induction l with
  | nil => intro _; simp [insertX]
  | cons a t ih =>
    intro h
    rcases List.pairwise_cons.mp h with ⟨ha, ht⟩
    by_cases h1 : x < a
    · simp only [insertX, if_pos h1]
      refine List.pairwise_cons.mpr ⟨?_, h⟩
      intro b hb
      rcases List.mem_cons.mp hb with rfl | hb
      · exact h1
      · exact lt_trans h1 (ha b hb)
    · by_cases h2 : x = a
      · simpa [insertX, if_neg h1, if_pos h2] using h
      · have hax : a < x := by
          rcases lt_trichotomy x a with h3 | h3 | h3
          · exact absurd h3 h1
          · exact absurd h3 h2
          · exact h3
        simp only [insertX, if_neg h1, if_neg h2]
        refine List.pairwise_cons.mpr ⟨?_, ih ht⟩
        intro b hb
        rcases mem_insertX hb with rfl | hb
        · exact hax
        · exact ha b hb

lemma pairwise_sortedDedup (l : List ℚ) : (sortedDedup l).Pairwise (· < ·) := by
  induction l with
  | nil => simp [sortedDedup]
  | cons a t ih => exact pairwise_insertX a _ ih

lemma cellsOf_lt :
    ∀ (xs : List ℚ), xs.Pairwise (· < ·) → ∀ c ∈ cellsOf xs, c.1 < c.2 := by
  intro xs
  induction xs with
  | nil => intro _ c hc; simp [cellsOf] at hc
  | cons a t ih =>
    intro h c hc
    rcases List.pairwise_cons.mp h with ⟨ha, ht⟩
    cases t with
    | nil => simp [cellsOf] at hc
    | cons b t2 =>
      simp only [cellsOf, List.tail_cons, List.zip_cons_cons, List.mem_cons] at hc
      rcases hc with rfl | hc
      · exact ha b (by simp)
      · exact ih ht c hc

lemma mergeCells_lt :
    ∀ (l : List (ℚ × ℚ)), (∀ c ∈ l, c.1 < c.2) → ∀ c ∈ mergeCells l, c.1 < c.2 := by
  intro l
  induction l with
  | nil => intro _ c hc; simp [mergeCells] at hc
  | cons a rest ih =>
    intro h c hc
    have ha : a.1 < a.2 := h a (by simp)
    have hrest : ∀ c ∈ rest, c.1 < c.2 := fun c hc => h c (List.mem_cons_of_mem _ hc)
    have ihall : ∀ c ∈ mergeCells rest, c.1 < c.2 := ih hrest
    cases hm : mergeCells rest with
    | nil =>
      have hstep : mergeCells (a :: rest) = [a] := by
        unfold mergeCells
        rw [hm]
      rw [hstep] at hc
      simp only [List.mem_singleton] at hc
      exact hc ▸ ha
    | cons d tail =>
      have hstep : mergeCells (a :: rest) =
          if a.2 = d.1 then (a.1, d.2) :: tail else a :: d :: tail := by
        unfold mergeCells
        rw [hm]
      rw [hstep] at hc
      have hd : d.1 < d.2 := ihall d (by rw [hm]; simp)
      have htail : ∀ c ∈ tail, c.1 < c.2 := fun c hc0 =>
        ihall c (by rw [hm]; exact List.mem_cons_of_mem _ hc0)
      by_cases hadj : a.2 = d.1
      · rw [if_pos hadj] at hc
        rcases List.mem_cons.mp hc with rfl | hc
        · exact lt_trans ha (hadj ▸ hd)
        · exact htail c hc
      · rw [if_neg hadj] at hc
        rcases List.mem_cons.mp hc with rfl | hc
        · exact ha
        · rcases List.mem_cons.mp hc with rfl | hc
          · exact hd
          · exact htail c hc

/-- Every segment produced by the clipping step has its left endpoint
strictly left of its right endpoint. -/
lemma clipLine_lt (vs : List Pt) (line : Seg) :
    ∀ s ∈ clipLine vs line, s.x1 < s.x2 := by
  intro s hs
  unfold clipLine at hs
  obtain ⟨c, hc, rfl⟩ := List.mem_map.mp hs
  have h1 : ∀ c ∈ cellsOf (criticalXs vs line.x1 line.x2 line.y), c.1 < c.2 :=
    cellsOf_lt _ (pairwise_sortedDedup _)
  have h2 : ∀ c0 ∈ (cellsOf (criticalXs vs line.x1 line.x2 line.y)).filter
      (fun c => insideClosed vs ((c.1 + c.2) / 2, line.y)), c0.1 < c0.2 :=
    fun c0 hc0 => h1 c0 (List.mem_of_mem_filter hc0)
  exact mergeCells_lt _ h2 c hc

lemma scanYsAux_neg (s maxy y : ℚ) (hy : ¬ y ≤ maxy) : scanYsAux s maxy y = [] := by
  simp [scanYsAux, hy]

/-- One unfolding of the closed-form scan list: for positive spacing, the
loop visits `y` and then continues from `y + s`. -/
lemma scanYsAux_step (s maxy y : ℚ) (hs : 0 < s) (hy : y ≤ maxy) :
    scanYsAux s maxy y = y :: scanYsAux s maxy (y + s) := by
  by_cases hy2 : y + s ≤ maxy
  · have hnum : (maxy - y) / s = (maxy - (y + s)) / s + 1 := by
      field_simp
      ring
    have hfl : ⌊(maxy - y) / s⌋ = ⌊(maxy - (y + s)) / s⌋ + 1 := by
      rw [hnum, Int.floor_add_one]
    have hnn : 0 ≤ ⌊(maxy - (y + s)) / s⌋ :=
      Int.floor_nonneg.mpr (div_nonneg (by linarith) (le_of_lt hs))
    have htn : (⌊(maxy - y) / s⌋).toNat = (⌊(maxy - (y + s)) / s⌋).toNat + 1 := by
      omega
    unfold scanYsAux
    rw [if_pos hy, if_pos hy2, htn, List.range_succ_eq_map, List.map_cons,
      List.map_map]
    congr 1
    · simp
    · refine List.map_congr_left fun k _ => ?_
      simp only [Function.comp_apply]
      push_cast
      ring
  · have h0 : ⌊(maxy - y) / s⌋ = 0 := by
      rw [Int.floor_eq_zero_iff, Set.mem_Ico]
      constructor
      · exact div_nonneg (by linarith) (le_of_lt hs)
      · rw [div_lt_one hs]
        linarith
    unfold scanYsAux
    rw [if_pos hy, if_neg hy2, h0]
    simp [List.range_succ]

/-- With positive spacing the fuelled loop terminates with exactly the
closed-form list, given fuel one more than that list's length. -/
lemma scanLoop_eq (s maxy : ℚ) (hs : 0 < s) :
    ∀ (n : ℕ) (y : ℚ) (acc : List ℚ), (scanYsAux s maxy y).length = n →
      scanLoop (n + 1) s maxy y acc = some (acc ++ scanYsAux s maxy y) := by
  intro n
  induction n with
  | zero =>
    intro y acc hlen
    by_cases hy : y ≤ maxy
    · rw [scanYsAux_step s maxy y hs hy] at hlen
      simp at hlen
    · unfold scanLoop
      rw [if_neg hy, scanYsAux_neg s maxy y hy]
      simp
  | succ n ih =>
    intro y acc hlen
    have hy : y ≤ maxy := by
      by_contra hy
      rw [scanYsAux_neg s maxy y hy] at hlen
      simp at hlen
    rw [scanYsAux_step s maxy y hs hy] at hlen
    simp only [List.length_cons, Nat.succ_inj] at hlen
    rw [scanYsAux_step s maxy y hs hy]
    show scanLoop (n + 1 + 1) s maxy y acc = _
    unfold scanLoop
    rw [if_pos hy, ih (y + s) (acc ++ [y]) hlen]
    simp

/-- With non-positive spacing and a nonempty y range, the loop guard never
becomes false: every fuel amount is exhausted. -/
lemma scanLoop_none (s maxy : ℚ) (hs : s ≤ 0) :
    ∀ (fuel : ℕ) (y : ℚ) (acc : List ℚ), y ≤ maxy →
      scanLoop fuel s maxy y acc = none := by
  intro fuel
  induction fuel with
  | zero => intro y acc _; rfl
  | succ f ih =>
    intro y acc hy
    unfold scanLoop
    rw [if_pos hy]
    exact ih (y + s) (acc ++ [y]) (by linarith)

/-- C10: the scan-line while loop of lines 61-72 terminates exactly under the
positive-spacing precondition.  For `spacing > 0` it completes in finitely
many iterations (fuel one past the closed-form list length suffices, and the
y values visited are exactly `scanYs`); for `spacing ≤ 0` with
`miny ≤ maxy` it runs forever — every fuel is exhausted — and no error is
ever raised. -/
theorem claim_c10 (miny maxy spacing : ℚ) :
    (0 < spacing →
      scanLoop ((scanYs miny maxy spacing).length + 1) spacing maxy miny [] =
        some (scanYs miny maxy spacing)) ∧
    (spacing ≤ 0 → miny ≤ maxy →
      ∀ (fuel : ℕ) (acc : List ℚ), scanLoop fuel spacing maxy miny acc = none) := by
  constructor
  · intro hs
    have hys : scanYs miny maxy spacing = scanYsAux spacing maxy miny := by
      simp [scanYs, hs]
    rw [hys]
    simpa using scanLoop_eq spacing maxy hs _ miny [] rfl
  · intro hs hle fuel acc
    exact scanLoop_none spacing maxy hs fuel miny acc hle

/-- Witness for C10 at concrete inputs. -/
theorem claim_c10_witness :
    scanLoop ((scanYs 0 1 1).length + 1) 1 1 0 [] = some (scanYs 0 1 1) ∧
    scanLoop 7 (-1) 1 0 [] = none :=
  ⟨(claim_c10 0 1 1).1 (by norm_num),
    (claim_c10 0 1 (-1)).2 (by norm_num) (by norm_num) 7 []⟩

/-- C4: for a bounding box of vertical extent `maxy - miny ≥ 0` and spacing
`s > 0`, the candidate scan lines are exactly those at
`y = miny + k * s` for `k = 0, 1, ...`, kept while `y ≤ maxy`, each spanning
`[minx, maxx]`, and their number is `⌊(maxy - miny) / s⌋ + 1`. -/
theorem claim_c4 (minx maxx miny maxy s : ℚ) (hs : 0 < s) (hle : miny ≤ maxy) :
    scanLines minx maxx miny maxy s =
      (List.range ((⌊(maxy - miny) / s⌋).toNat + 1)).map
        (fun (k : ℕ) => ⟨minx, maxx, miny + (k : ℚ) * s⟩) ∧
    ((scanLines minx maxx miny maxy s).length : ℤ) = ⌊(maxy - miny) / s⌋ + 1 ∧
    (∀ y : ℚ, (∃ l ∈ scanLines minx maxx miny maxy s, Seg.y l = y) ↔
      ∃ k : ℕ, y = miny + (k : ℚ) * s ∧ y ≤ maxy) := by
  have hnn : 0 ≤ ⌊(maxy - miny) / s⌋ :=
    Int.floor_nonneg.mpr (div_nonneg (by linarith) (le_of_lt hs))
  have heq : scanLines minx maxx miny maxy s =
      (List.range ((⌊(maxy - miny) / s⌋).toNat + 1)).map
        (fun (k : ℕ) => ⟨minx, maxx, miny + (k : ℚ) * s⟩) := by
    unfold scanLines scanYs scanYsAux
    rw [if_pos hs, if_pos hle, List.map_map]
    rfl
  refine ⟨heq, ?_, ?_⟩
  · rw [heq]
    simp only [List.length_map, List.length_range]
    push_cast [Int.toNat_of_nonneg hnn]
    ring
  · intro y
    constructor
    · rintro ⟨l, hl, hy⟩
      rw [heq] at hl
      obtain ⟨k, hk, rfl⟩ := List.mem_map.mp hl
      rw [List.mem_range] at hk
      refine ⟨k, hy ▸ rfl, ?_⟩
      have hk2 : (k : ℤ) ≤ ⌊(maxy - miny) / s⌋ := by omega
      have hk3 : (k : ℚ) ≤ (maxy - miny) / s := by
        exact_mod_cast le_trans (by exact_mod_cast hk2) (Int.floor_le _)
      have hk4 : (k : ℚ) * s ≤ maxy - miny := (le_div_iff₀ hs).mp hk3
      rw [← hy]
      simp only [Seg.y]
      linarith
    · rintro ⟨k, rfl, hky⟩
      have hk4 : (k : ℚ) * s ≤ maxy - miny := by linarith
      have hk3 : (k : ℚ) ≤ (maxy - miny) / s := (le_div_iff₀ hs).mpr hk4
      have hk2 : (k : ℤ) ≤ ⌊(maxy - miny) / s⌋ := Int.le_floor.mpr (by exact_mod_cast hk3)
      refine ⟨⟨minx, maxx, miny + (k : ℚ) * s⟩, ?_, rfl⟩
      rw [heq]
      exact List.mem_map.mpr ⟨k, List.mem_range.mpr (by omega), rfl⟩

/-- Witness for C4 on the concrete square bounding box. -/
theorem claim_c4_witness :
    scanLines 0 100 0 100 50 = [⟨0, 100, 0⟩, ⟨0, 100, 50⟩, ⟨0, 100, 100⟩] ∧
    ((scanLines 0 100 0 100 50).length : ℤ) = ⌊((100 : ℚ) - 0) / 50⌋ + 1 := by
  have h := claim_c4 0 100 0 100 50 (by norm_num) (by norm_num)
  refine ⟨?_, h.2.1⟩
  rw [h.1]
  have h2 : (⌊((100 : ℚ) - 0) / 50⌋).toNat = 2 := by
    rw [show ⌊((100 : ℚ) - 0) / 50⌋ = 2 by norm_num]
    rfl
  rw [h2]
  norm_num [List.range_succ]

lemma insertSeg_cons (s a : Seg) (t : List Seg) :
    insertSeg s (a :: t) = if s.y ≤ a.y then s :: a :: t else a :: insertSeg s t := rfl

lemma insertSeg_perm (s : Seg) : ∀ (l : List Seg), (insertSeg s l).Perm (s :: l) := by
  intro l
  induction l with
  | nil => exact List.Perm.refl _
  | cons a t ih =>
    rw [insertSeg_cons]
    by_cases h : s.y ≤ a.y
    · rw [if_pos h]
    · rw [if_neg h]
      exact (ih.cons a).trans (List.Perm.swap s a t)

lemma mem_insertSeg {b s : Seg} {l : List Seg} (h : b ∈ insertSeg s l) :
    b = s ∨ b ∈ l := by
  have := (insertSeg_perm s l).mem_iff.mp h
  simpa using this

lemma pairwise_insertSeg (s : Seg) :
    ∀ (l : List Seg), l.Pairwise (fun a b => a.y ≤ b.y) →
      (insertSeg s l).Pairwise (fun a b => a.y ≤ b.y) := by
  intro l
  induction l with
  | nil => intro _; simp [insertSeg]
  | cons a t ih =>
    intro h
    rcases List.pairwise_cons.mp h with ⟨ha, ht⟩
    rw [insertSeg_cons]
    by_cases hy : s.y ≤ a.y
    · rw [if_pos hy]
      refine List.pairwise_cons.mpr ⟨?_, h⟩
      intro b hb
      rcases List.mem_cons.mp hb with rfl | hb
      · exact hy
      · exact le_trans hy (ha b hb)
    · rw [if_neg hy]
      have hay : a.y ≤ s.y := le_of_lt (lt_of_not_le hy)
      refine List.pairwise_cons.mpr ⟨?_, ih ht⟩
      intro b hb
      rcases mem_insertSeg hb with rfl | hb
      · exact hay
      · exact ha b hb

lemma sortLines_cons (x : Seg) (l : List Seg) :
    sortLines (x :: l) = insertSeg x (sortLines l) := rfl

lemma sortLines_perm (l : List Seg) : (sortLines l).Perm l := by
  induction l with
  | nil => exact List.Perm.refl _
  | cons a t ih =>
    rw [sortLines_cons]
    exact (insertSeg_perm a (sortLines t)).trans (ih.cons a)

lemma sortLines_pairwise (l : List Seg) :
    (sortLines l).Pairwise (fun a b => a.y ≤ b.y) := by
  induction l with
  | nil => simp [sortLines]
  | cons a t ih => exact pairwise_insertSeg a _ ih

lemma filter_insertSeg_eq (k : ℚ) (s : Seg) (hk : s.y = k) :
    ∀ (l : List Seg), (insertSeg s l).filter (fun a => decide (a.y = k)) =
      s :: l.filter (fun a => decide (a.y = k)) := by
  intro l
  induction l with
  | nil => simp [insertSeg, hk]
  | cons a t ih =>
    rw [insertSeg_cons]
    by_cases h : s.y ≤ a.y
    · rw [if_pos h]
      simp [List.filter_cons, hk]
    · rw [if_neg h]
      have ha : ¬ a.y = k := fun hak => h (by rw [hk, hak])
      simp only [List.filter_cons, ha, decide_False, if_false, ih]
      simp [ha]

lemma filter_insertSeg_ne (k : ℚ) (s : Seg) (hk : ¬ s.y = k) :
    ∀ (l : List Seg), (insertSeg s l).filter (fun a => decide (a.y = k)) =
      l.filter (fun a => decide (a.y = k)) := by
  intro l
  induction l with
  | nil => simp [insertSeg, hk]
  | cons a t ih =>
    rw [insertSeg_cons]
    by_cases h : s.y ≤ a.y
    · rw [if_pos h]
      simp [List.filter_cons, hk]
    · rw [if_neg h]
      simp [List.filter_cons, ih]

/-- Stability of the sort: the subsequence of segments with any fixed
centroid y is unchanged, i.e. ties keep their original generation order. -/
lemma sortLines_filter (l : List Seg) (k : ℚ) :
    (sortLines l).filter (fun a => decide (a.y = k)) =
      l.filter (fun a => decide (a.y = k)) := by
  induction l with
  | nil => rfl
  | cons x t ih =>
    rw [sortLines_cons]
    by_cases hx : x.y = k
    · rw [filter_insertSeg_eq k x hx, ih]
      simp [List.filter_cons, hx]
    · rw [filter_insertSeg_ne k x hx, ih]
      simp [List.filter_cons, hx]

lemma enumFrom_cons_eq (j : ℕ) (s : Seg) (rest : List Seg) :
    List.enumFrom j (s :: rest) = (j, s) :: List.enumFrom (j + 1) rest := rfl

/-- Closed form of the alternating accumulation loop: starting at index `j`
with flag `rev`, block `i` is forward exactly when its index has the parity
selected by the flag. -/
lemma sweepFold_enumFrom (f : Seg → List Wp) :
    ∀ (l : List Seg) (j : ℕ) (rev : Bool),
      sweepFold f l rev =
        ((List.enumFrom j l).map fun is =>
          if (is.1 % 2 = j % 2) ↔ (rev = false) then f is.2
          else (f is.2).reverse).flatten := by
  intro l
  induction l with
  | nil => intro j rev; rfl
  | cons s rest ih =>
    intro j rev
    have hcond : ∀ i : ℕ,
        ((i % 2 = (j + 1) % 2) ↔ ((!rev) = false)) =
          ((i % 2 = j % 2) ↔ (rev = false)) := by
      intro i
      apply propext
      rcases Nat.mod_two_eq_zero_or_one i with h | h <;>
        rcases Nat.mod_two_eq_zero_or_one j with h2 | h2 <;>
          cases rev <;> simp [h, h2, Nat.add_mod]
    show (if rev then (f s).reverse else f s) ++ sweepFold f rest (!rev) = _
    rw [ih (j + 1) (!rev), enumFrom_cons_eq, List.map_cons, List.flatten_cons]
    congr 1
    · cases rev <;> simp
    · refine congrArg List.flatten (List.map_congr_left fun is _ => ?_)
      simp only [hcond is.1]

/-- C1: for every nonzero waypoint interval, the waypoint list returned by
the interpolation-and-concatenation phase is exactly the concatenation of the
per-segment waypoint sequences in segment order, with even-indexed segments
traversed forward and odd-indexed segments reversed — the first segment is
forward and the traversal direction flips at every segment, so two adjacent
segments always have opposite directions. -/
theorem claim_c1 (inv : Pt → Pt) (alt wi : ℚ) (lines : List Seg) (hwi : wi ≠ 0) :
    buildWaypoints inv alt wi lines =
      Except.ok ((lines.enum.map fun is =>
        if is.1 % 2 = 0 then segmentPoints inv alt wi is.2
        else (segmentPoints inv alt wi is.2).reverse).flatten) := by
  have hfold := sweepFold_enumFrom (segmentPoints inv alt wi) lines 0 false
  have hmap : ((List.enumFrom 0 lines).map fun is =>
      if (is.1 % 2 = 0 % 2) ↔ (false = false) then segmentPoints inv alt wi is.2
      else (segmentPoints inv alt wi is.2).reverse) =
      (lines.enum.map fun is =>
        if is.1 % 2 = 0 then segmentPoints inv alt wi is.2
        else (segmentPoints inv alt wi is.2).reverse) := by
    refine List.map_congr_left fun is _ => ?_
    simp
  cases lines with
  | nil => rfl
  | cons s rest =>
    show (if wi = 0 then Except.error PlanError.zeroDivisionError
      else Except.ok (sweepFold (segmentPoints inv alt wi) (s :: rest) false)) = _
    rw [if_neg hwi, hfold]
    exact congrArg Except.ok (congrArg List.flatten hmap)

/-- Witness for C1: two segments of length 20 at interval 10, the first
traversed forward and the second reversed. -/
theorem claim_c1_witness :
    buildWaypoints id 7 10 [⟨0, 20, 0⟩, ⟨0, 20, 50⟩] =
      Except.ok [(0, 0, 7), (10, 0, 7), (20, 0, 7),
        (20, 50, 7), (10, 50, 7), (0, 50, 7)] := by
  rw [claim_c1 id 7 10 [⟨0, 20, 0⟩, ⟨0, 20, 50⟩] (by norm_num)]
  have hn : numPoints 20 10 = 3 := by
    rw [numPoints, show ⌊(20 : ℚ) / 10⌋ = 2 by norm_num]
    rfl
  have hn2 : (20 : ℚ) - 0 = 20 := by norm_num
  norm_num [segmentPoints, segPlanarPoints, hn2, hn, List.range_succ, List.enum,
    List.enumFrom]

lemma validatePolygon_ok_iff (coords vs : List Pt) :
    validatePolygon coords = Except.ok vs ↔
      vs = coords ∧ ¬ coords.length < 3 ∧ shoelace coords ≠ 0 := by
  unfold validatePolygon
  by_cases h1 : coords.length < 3
  · simp [h1]
  · by_cases h2 : shoelace coords = 0
    · simp [h1, h2]
    · simp [h1, h2, eq_comm]

lemma validatePolygon_error_eq {coords : List Pt} {e : PlanError}
    (hv : validatePolygon coords = Except.error e) : e = PlanError.geometryError := by
  unfold validatePolygon at hv
  by_cases h1 : coords.length < 3
  · rw [if_pos h1] at hv
    exact (Except.error.inj hv).symm
  · rw [if_neg h1] at hv
    by_cases h2 : shoelace coords = 0
    · rw [if_pos h2] at hv
      exact (Except.error.inj hv).symm
    · rw [if_neg h2] at hv
      exact absurd hv (by simp)

lemma generate_eq_error (proj : Projection) (coords : List Pt) (s wi alt : ℚ)
    (e : PlanError) (hv : validatePolygon coords = Except.error e) :
    generate_sweep_waypoints proj coords s wi alt = Except.error e := by
  unfold generate_sweep_waypoints
  rw [hv]

lemma generate_eq_build (proj : Projection) (coords : List Pt) (s wi alt : ℚ)
    (hv : validatePolygon coords = Except.ok coords) :
    generate_sweep_waypoints proj coords s wi alt =
      buildWaypoints proj.toGeo alt wi
        (sortLines (planarSegments (coords.map proj.toPlane) s)) := by
  unfold generate_sweep_waypoints
  rw [hv]

lemma buildWaypoints_ok (inv : Pt → Pt) (alt wi : ℚ) (lines : List Seg) (hwi : wi ≠ 0) :
    buildWaypoints inv alt wi lines =
      Except.ok (sweepFold (segmentPoints inv alt wi) lines false) := by
  cases lines with
  | nil => rfl
  | cons s rest =>
    show (if wi = 0 then Except.error PlanError.zeroDivisionError
      else Except.ok (sweepFold (segmentPoints inv alt wi) (s :: rest) false)) =
      Except.ok (sweepFold (segmentPoints inv alt wi) (s :: rest) false)
    rw [if_neg hwi]

/-- C5: the segment ordering of line 73 is a stable sort by ascending
centroid y — it permutes the collected segments, its result is pairwise
ordered by y, and segments of equal y keep their original generation order —
and every successful planning call returns exactly the concatenation of the
per-segment waypoint sequences taken in this sorted order. -/
theorem claim_c5 :
    (∀ lines : List Seg,
      (sortLines lines).Perm lines ∧
      (sortLines lines).Pairwise (fun a b => a.y ≤ b.y) ∧
      ∀ k : ℚ, (sortLines lines).filter (fun a => decide (a.y = k)) =
        lines.filter (fun a => decide (a.y = k))) ∧
    (∀ (proj : Projection) (coords : List Pt) (spacing wi alt : ℚ) (wps : List Wp),
      generate_sweep_waypoints proj coords spacing wi alt = Except.ok wps →
      wps = sweepFold (segmentPoints proj.toGeo alt wi)
        (sortLines (planarSegments (coords.map proj.toPlane) spacing)) false) := by
  refine ⟨fun lines => ⟨sortLines_perm lines, sortLines_pairwise lines,
    fun k => sortLines_filter lines k⟩, ?_⟩
  intro proj coords spacing wi alt wps h
  cases hv : validatePolygon coords with
  | error e =>
    rw [generate_eq_error proj coords spacing wi alt e hv] at h
    exact absurd h (by simp)
  | ok vs =>
    have hvs : vs = coords := ((validatePolygon_ok_iff coords vs).mp hv).1
    have hv2 : validatePolygon coords = Except.ok coords := by rw [hv, hvs]
    rw [generate_eq_build proj coords spacing wi alt hv2] at h
    by_cases hwi : wi = 0
    · cases hl : sortLines (planarSegments (coords.map proj.toPlane) spacing) with
      | nil =>
        rw [hl] at h
        have h2 : ([] : List Wp) = wps := Except.ok.inj h
        exact h2.symm
      | cons s0 rest =>
        rw [hl] at h
        have h3 : buildWaypoints proj.toGeo alt wi (s0 :: rest) =
            Except.error PlanError.zeroDivisionError := by
          show (if wi = 0 then Except.error PlanError.zeroDivisionError
            else Except.ok (sweepFold (segmentPoints proj.toGeo alt wi) (s0 :: rest) false)) =
            Except.error PlanError.zeroDivisionError
          rw [if_pos hwi]
        rw [h3] at h
        exact absurd h (by simp)
    · rw [buildWaypoints_ok _ _ _ _ hwi] at h
      exact (Except.ok.inj h).symm

/-- C7: a polygon with fewer than three distinct vertices or zero enclosed
area is rejected with the geometry error before any projection, and no
waypoint list is returned. -/
theorem claim_c7 (proj : Projection) (coords : List Pt) (spacing wi alt : ℚ)
    (h : coords.dedup.length < 3 ∨ shoelace coords = 0) :
    generate_sweep_waypoints proj coords spacing wi alt =
      Except.error PlanError.geometryError := by
  classical
  have hsh : coords.length < 3 ∨ shoelace coords = 0 := by
    rcases h with h | h
    · by_cases hlen : coords.length < 3
      · exact Or.inl hlen
      · exact Or.inr (shoelace_eq_zero_of_dedup coords h)
    · exact Or.inr h
  have hv : validatePolygon coords = Except.error PlanError.geometryError := by
    unfold validatePolygon
    rcases hsh with h1 | h1
    · rw [if_pos h1]
    · by_cases hlen : coords.length < 3
      · rw [if_pos hlen]
      · rw [if_neg hlen, if_pos h1]
  exact generate_eq_error proj coords spacing wi alt PlanError.geometryError hv

/-- Witness for C7: three collinear vertices enclose zero area and are
rejected. -/
theorem claim_c7_witness :
    generate_sweep_waypoints idProj ([(0, 0), (1, 1), (2, 2)] : List Pt) 1 1 1 =
      Except.error PlanError.geometryError :=
  claim_c7 idProj ([(0, 0), (1, 1), (2, 2)] : List Pt) 1 1 1
    (Or.inr (by norm_num [shoelace, ringShifts]))

/-- C8: every clipped segment that the scan loop retains has strictly
positive length (its left endpoint is strictly left of its right endpoint);
scan lines whose intersection with the polygon is empty or consists only of
isolated touch points contribute no segments at all. -/
theorem claim_c8 (pvs : List Pt) (spacing : ℚ) (s : Seg)
    (hs : s ∈ planarSegments pvs spacing) : s.x1 < s.x2 := by
  unfold planarSegments at hs
  obtain ⟨line, _, hmem⟩ := List.mem_flatMap.mp hs
  exact clipLine_lt pvs line s hmem

lemma numPoints_ge_two (L wi : ℚ) : 2 ≤ numPoints L wi := by
  unfold numPoints
  have h : (2 : ℤ) ≤ max (⌊L / wi⌋ + 1) 2 := le_max_right _ _
  omega

lemma segPlanarPoints_length (wi : ℚ) (s : Seg) :
    (segPlanarPoints wi s).length = numPoints (s.x2 - s.x1) wi := by
  simp [segPlanarPoints]

lemma segPlanarPoints_get (wi : ℚ) (s : Seg) (i : ℕ)
    (h : i < (segPlanarPoints wi s).length) :
    (segPlanarPoints wi s).get ⟨i, h⟩ =
      (s.x1 + ((i : ℚ) / ((numPoints (s.x2 - s.x1) wi : ℚ) - 1)) * (s.x2 - s.x1), s.y) := by
  simp [segPlanarPoints, List.get_eq_getElem]

/-- C3: for a retained segment of planar length `L = x2 - x1` and positive
waypoint interval, the number of interpolation points is
`max(⌊L / interval⌋ + 1, 2)`, hence at least 2; point `i` sits at parameter
`t = i / (num_points - 1)` along the segment, so the first point is the left
endpoint and the last point is the right endpoint. -/
theorem claim_c3 (s : Seg) (wi : ℚ) (_hwi : 0 < wi) :
    ((segPlanarPoints wi s).length : ℤ) = max (⌊(s.x2 - s.x1) / wi⌋ + 1) 2 ∧
    2 ≤ (segPlanarPoints wi s).length ∧
    (∀ (i : ℕ) (hi : i < (segPlanarPoints wi s).length),
      (segPlanarPoints wi s).get ⟨i, hi⟩ =
        (s.x1 + ((i : ℚ) / (((segPlanarPoints wi s).length : ℚ) - 1)) * (s.x2 - s.x1),
          s.y)) ∧
    (segPlanarPoints wi s).head? = some (s.x1, s.y) ∧
    (segPlanarPoints wi s).getLast? = some (s.x2, s.y) := by
  have hlen := segPlanarPoints_length wi s
  have hn2 : 2 ≤ numPoints (s.x2 - s.x1) wi := numPoints_ge_two _ _
  have hlen2 : 2 ≤ (segPlanarPoints wi s).length := by rw [hlen]; exact hn2
  have hpos : 0 < (segPlanarPoints wi s).length := by omega
  refine ⟨?_, hlen2, ?_, ?_, ?_⟩
  · rw [hlen]
    unfold numPoints
    have h2 : (2 : ℤ) ≤ max (⌊(s.x2 - s.x1) / wi⌋ + 1) 2 := le_max_right _ _
    omega
  · intro i hi
    rw [segPlanarPoints_get wi s i hi, hlen]
  · rw [List.head?_eq_getElem?, List.getElem?_eq_getElem hpos]
    have h0 := segPlanarPoints_get wi s 0 hpos
    rw [List.get_eq_getElem] at h0
    rw [h0]
    norm_num
  · have hlast : (segPlanarPoints wi s).length - 1 < (segPlanarPoints wi s).length := by
      omega
    rw [List.getLast?_eq_getElem?, List.getElem?_eq_getElem hlast]
    have h1 := segPlanarPoints_get wi s ((segPlanarPoints wi s).length - 1) hlast
    rw [List.get_eq_getElem] at h1
    rw [h1]
    have hcast : (((segPlanarPoints wi s).length - 1 : ℕ) : ℚ) =
        ((numPoints (s.x2 - s.x1) wi : ℚ) - 1) := by
      rw [hlen]
      push_cast [Nat.cast_sub (by omega : 1 ≤ numPoints (s.x2 - s.x1) wi)]
      ring
    have hne : ((numPoints (s.x2 - s.x1) wi : ℚ) - 1) ≠ 0 := by
      have : (2 : ℚ) ≤ (numPoints (s.x2 - s.x1) wi : ℚ) := by exact_mod_cast hn2
      linarith
    rw [hcast, div_self hne, one_mul]
    show some (s.x1 + (s.x2 - s.x1), s.y) = some (s.x2, s.y)
    norm_num

/-- Witness for C3: a length-100 segment at interval 10 yields 11 points with
the segment endpoints first and last. -/
theorem claim_c3_witness :
    (segPlanarPoints 10 ⟨0, 100, 0⟩).length = 11 ∧
    (segPlanarPoints 10 ⟨0, 100, 0⟩).head? = some (0, 0) ∧
    (segPlanarPoints 10 ⟨0, 100, 0⟩).getLast? = some (100, 0) := by
  obtain ⟨h1, h2, h3, h4, h5⟩ := claim_c3 ⟨0, 100, 0⟩ 10 (by norm_num)
  refine ⟨?_, h4, h5⟩
  have hmax : max (⌊(((100 : ℚ)) - 0) / 10⌋ + 1) 2 = 11 := by norm_num
  have h6 := h1.trans hmax
  exact_mod_cast h6

lemma square_validate : validatePolygon squarePoly = Except.ok squarePoly := by
  norm_num [validatePolygon, shoelace, squarePoly, ringShifts]

lemma square_map_id : squarePoly.map idProj.toPlane = squarePoly := by
  simp [idProj]

lemma square_bounds : minX squarePoly = 0 ∧ maxX squarePoly = 100 ∧
    minY squarePoly = 0 ∧ maxY squarePoly = 100 := by
  norm_num [minX, maxX, minY, maxY, squarePoly]

lemma square_scanYs : scanYs 0 100 50 = [0, 50, 100] := by
  rw [scanYs, if_pos (by norm_num : (0 : ℚ) < 50), scanYsAux,
    if_pos (by norm_num : (0 : ℚ) ≤ 100),
    show (⌊((100 : ℚ) - 0) / 50⌋).toNat + 1 = 3 from by
      rw [show ⌊((100 : ℚ) - 0) / 50⌋ = 2 by norm_num]
      rfl]
  norm_num [List.range_succ]

lemma square_scanLines : scanLines 0 100 0 100 50 =
    [⟨0, 100, 0⟩, ⟨0, 100, 50⟩, ⟨0, 100, 100⟩] := by
  rw [scanLines, square_scanYs]
  rfl

lemma square_clip_0 : clipLine squarePoly ⟨0, 100, 0⟩ = [⟨0, 100, 0⟩] := by
  norm_num [clipLine, criticalXs, squarePoly, edges, ringShifts, edgeCritX, sortedDedup,
    insertX, cellsOf, mergeCells, insideClosed, onBoundary, pointOnEdge, rayCrosses,
    List.countP_cons]

lemma square_clip_50 : clipLine squarePoly ⟨0, 100, 50⟩ = [⟨0, 100, 50⟩] := by
  norm_num [clipLine, criticalXs, squarePoly, edges, ringShifts, edgeCritX, sortedDedup,
    insertX, cellsOf, mergeCells, insideClosed, onBoundary, pointOnEdge, rayCrosses,
    List.countP_cons]

lemma square_clip_100 : clipLine squarePoly ⟨0, 100, 100⟩ = [⟨0, 100, 100⟩] := by
  norm_num [clipLine, criticalXs, squarePoly, edges, ringShifts, edgeCritX, sortedDedup,
    insertX, cellsOf, mergeCells, insideClosed, onBoundary, pointOnEdge, rayCrosses,
    List.countP_cons]

lemma square_planarSegments : planarSegments squarePoly 50 =
    [⟨0, 100, 0⟩, ⟨0, 100, 50⟩, ⟨0, 100, 100⟩] := by
  unfold planarSegments
  rw [square_bounds.1, square_bounds.2.1, square_bounds.2.2.1, square_bounds.2.2.2,
    square_scanLines]
  simp only [List.flatMap_cons, List.flatMap_nil, square_clip_0, square_clip_50,
    square_clip_100, List.append_nil]
  rfl

lemma square_sorted : sortLines [⟨0, 100, 0⟩, ⟨0, 100, 50⟩, ⟨0, 100, 100⟩] =
    [⟨0, 100, 0⟩, ⟨0, 100, 50⟩, ⟨0, 100, 100⟩] := by
  norm_num [sortLines, insertSeg]

/-- Planning on the square reduces to the interpolation phase on its three
sorted unit-row segments, for every interval and altitude. -/
lemma gen_square_eq (wi alt : ℚ) :
    generate_sweep_waypoints idProj squarePoly 50 wi alt =
      buildWaypoints id alt wi [⟨0, 100, 0⟩, ⟨0, 100, 50⟩, ⟨0, 100, 100⟩] := by
  rw [generate_eq_build idProj squarePoly 50 wi alt square_validate, square_map_id,
    square_planarSegments, square_sorted]
  rfl

/-- The 33 waypoints of the concrete scenario: 11 per row, the first row
west-to-east, the second east-to-west, the third west-to-east. -/
def c6Expected : List Wp :=
  [(0, 0, 20), (10, 0, 20), (20, 0, 20), (30, 0, 20), (40, 0, 20), (50, 0, 20),
   (60, 0, 20), (70, 0, 20), (80, 0, 20), (90, 0, 20), (100, 0, 20),
   (100, 50, 20), (90, 50, 20), (80, 50, 20), (70, 50, 20), (60, 50, 20),
   (50, 50, 20), (40, 50, 20), (30, 50, 20), (20, 50, 20), (10, 50, 20), (0, 50, 20),
   (0, 100, 20), (10, 100, 20), (20, 100, 20), (30, 100, 20), (40, 100, 20),
   (50, 100, 20), (60, 100, 20), (70, 100, 20), (80, 100, 20), (90, 100, 20),
   (100, 100, 20)]

/-- C6: the concrete scenario.  The square with corners (0,0), (0,100),
(100,100), (100,0), spacing 50, interval 10, altitude 20 produces scan lines
at y = 0, 50, 100, each clipped to the single segment [0,100] at its height,
and the planner returns exactly 33 waypoints: 11 per row, row 0 west-to-east,
row 1 east-to-west, row 2 west-to-east, all at altitude 20. -/
theorem claim_c6 :
    scanYs 0 100 50 = [0, 50, 100] ∧
    clipLine squarePoly ⟨0, 100, 0⟩ = [⟨0, 100, 0⟩] ∧
    clipLine squarePoly ⟨0, 100, 50⟩ = [⟨0, 100, 50⟩] ∧
    clipLine squarePoly ⟨0, 100, 100⟩ = [⟨0, 100, 100⟩] ∧
    generate_sweep_waypoints idProj squarePoly 50 10 20 = Except.ok c6Expected ∧
    c6Expected.length = 33 := by
  refine ⟨square_scanYs, square_clip_0, square_clip_50, square_clip_100, ?_, by rfl⟩
  rw [gen_square_eq 10 20]
  have hn : numPoints 100 10 = 11 := by
    rw [numPoints, show ⌊(100 : ℚ) / 10⌋ = 10 by norm_num]
    rfl
  norm_num [buildWaypoints, sweepFold, segmentPoints, segPlanarPoints, hn,
    List.range_succ, c6Expected]

/-- Evaluation of the planner on the square with a negative waypoint
interval: no error is raised; every row contributes its 2 endpoints. -/
lemma gen_square_neg_eval :
    generate_sweep_waypoints idProj squarePoly 50 (-10) 20 =
      Except.ok [(0, 0, 20), (100, 0, 20), (100, 50, 20), (0, 50, 20),
        (0, 100, 20), (100, 100, 20)] := by
  rw [gen_square_eq (-10) 20]
  have hn : numPoints 100 (-10) = 2 := by
    rw [numPoints, show ⌊(100 : ℚ) / (-10)⌋ = -10 by norm_num]
    rfl
  norm_num [buildWaypoints, sweepFold, segmentPoints, segPlanarPoints, hn,
    List.range_succ]

/-- Counterexample to C2 as stated: with spacing 50 and waypoint interval
-10 the planning call does not fail with a configuration error — the source
contains no parameter validation — and it does return a waypoint list. -/
theorem claim_c2_counterexample :
    generate_sweep_waypoints idProj squarePoly 50 (-10) 20 =
      Except.ok [(0, 0, 20), (100, 0, 20), (100, 50, 20), (0, 50, 20),
        (0, 100, 20), (100, 100, 20)] ∧
    generate_sweep_waypoints idProj squarePoly 50 (-10) 20 ≠
      Except.error PlanError.configurationError :=
  ⟨gen_square_neg_eval, by rw [gen_square_neg_eval]; simp⟩

/-- C2 amended: the source performs no configuration validation.  With
positive spacing and a negative waypoint interval the planning call never
raises a configuration error: it either rejects the polygon with the
geometry error or returns a waypoint list, and every retained segment of
positive length contributes exactly 2 waypoints.  (A zero interval instead
raises a division error during interpolation — after projection — and
non-positive spacing makes the scan loop diverge; see C10.) -/
theorem claim_c2_amended (proj : Projection) (coords : List Pt)
    (spacing wi alt : ℚ) (_hs : 0 < spacing) (hwi : wi < 0) :
    ((∃ wps : List Wp,
        generate_sweep_waypoints proj coords spacing wi alt = Except.ok wps) ∨
      generate_sweep_waypoints proj coords spacing wi alt =
        Except.error PlanError.geometryError) ∧
    (∀ L : ℚ, 0 < L → numPoints L wi = 2) := by
  constructor
  · cases hv : validatePolygon coords with
    | error e =>
      right
      rw [generate_eq_error proj coords spacing wi alt e hv,
        validatePolygon_error_eq hv]
    | ok vs =>
      left
      have hvs : vs = coords := ((validatePolygon_ok_iff coords vs).mp hv).1
      have hv2 : validatePolygon coords = Except.ok coords := by rw [hv, hvs]
      rw [generate_eq_build proj coords spacing wi alt hv2,
        buildWaypoints_ok _ _ _ _ (ne_of_lt hwi)]
      exact ⟨_, rfl⟩
  · intro L hL
    unfold numPoints
    have hdiv : L / wi < 0 := div_neg_of_pos_of_neg hL hwi
    have hfl : ⌊L / wi⌋ < 0 := by
      by_contra hc
      push_neg at hc
      exact absurd (Int.floor_nonneg.mp hc) (by linarith)
    rw [max_eq_right (by omega : ⌊L / wi⌋ + 1 ≤ 2)]
    rfl

/-- Witness for the amended C2 at the concrete square scenario. -/
theorem claim_c2_witness :
    ((∃ wps : List Wp, generate_sweep_waypoints idProj squarePoly 50 (-10) 20 =
        Except.ok wps) ∨
      generate_sweep_waypoints idProj squarePoly 50 (-10) 20 =
        Except.error PlanError.geometryError) ∧
    (∀ L : ℚ, 0 < L → numPoints L (-10) = 2) :=
  claim_c2_amended idProj squarePoly 50 (-10) 20 (by norm_num) (by norm_num)

/-- Witness for C5: on the square scenario with interval -10 the returned
list is the alternating concatenation over the sorted segments. -/
theorem claim_c5_witness :
    [((0 : ℚ), (0 : ℚ), (20 : ℚ)), (100, 0, 20), (100, 50, 20), (0, 50, 20),
        (0, 100, 20), (100, 100, 20)] =
      sweepFold (segmentPoints idProj.toGeo 20 (-10))
        (sortLines (planarSegments (squarePoly.map idProj.toPlane) 50)) false :=
  claim_c5.2 idProj squarePoly 50 (-10) 20 _ gen_square_neg_eval

/-- Witness for C8: the retained middle-row segment of the square has
strictly positive length. -/
theorem claim_c8_witness : (Seg.mk 0 100 50).x1 < (Seg.mk 0 100 50).x2 := by
  apply claim_c8 squarePoly 50
  rw [square_planarSegments]
  simp

end PathPlanning
